import Mathlib

/-!
# Verification of the crownpipe part-number resolution engine

Shallow embedding of `src/crownpipe/data/verify_part_numbers.py`:
the normalizer, the catalog caches, the supersession-chain walker,
the decimal variant generator and the resolution cascade, together
with theorems settling the specification claims.

Python strings are modelled as lists of character code points
(`Str := List Nat`); Python dicts are modelled as association lists
looked up with `List.lookup` (a freshly stored binding is consed on
the front, so it shadows older bindings exactly as a dict overwrite
does).  `None`-or-string values are modelled with `Option Str`, and
Python truthiness of such a value (`if not master: ...`) is modelled
by `truthyS` (a string is falsy iff it is empty).
-/

namespace Crownpipe

/-- Strings as lists of character code points. -/
abbrev Str := List Nat

/-- Convert a Lean string literal to its list of code points (for
concrete test inputs such as `"4798878.01"`). -/
def ofStr (s : String) : Str := s.data.map (fun c => c.toNat)

/-- Code-point class of the regex `[A-Za-z0-9]` used by the normalizer. -/
def isAlnumCode (c : Nat) : Bool :=
  (65 ≤ c && c ≤ 90) || (97 ≤ c && c ≤ 122) || (48 ≤ c && c ≤ 57)

/-- `str.upper()` on a single code point (only ASCII letters occur after
the alphanumeric filter, so ASCII uppercasing is exact). -/
def toUpperCode (c : Nat) : Nat :=
  if 97 ≤ c && c ≤ 122 then c - 32 else c

/-- `normalize_part_number(part)`: remove non-alphanumeric characters and
uppercase; `None` input yields the empty string. -/
def normalize_part_number : Option Str → Str
  | none => []
  | some part => (part.filter isAlnumCode).map toUpperCode

/-- Python truthiness of an `Optional[str]`: `None` and `""` are falsy. -/
def truthyS : Option Str → Bool
  | none => false
  | some s => !s.isEmpty

/-- The in-memory caches of `DataCaches`: the three AS/400 maps
(`_insmfh`, `_ininter`, `_vendor_map`), the FileMaker memo
(`_fm_active_cache`) and, as the model of the external FileMaker
`Master` table, a function giving the `ToggleActive` field of the
record matching a normalized key (or `none` when no row matches). -/
structure DataCaches where
  insmfh : List (Str × Option Str)
  ininter : List (Str × Str)
  vendor_map : List (Str × Str)
  fm_active_cache : List (Str × Option Bool)
  fm_source : Str → Option Str

/-- `DataCaches.resolve_vendor_internal`: normalized vendor-map lookup. -/
def resolve_vendor_internal (caches : DataCaches) (supplied : Str) : Option Str :=
  let key := normalize_part_number (some supplied)
  if key = [] then none
  else caches.vendor_map.lookup key

/-- `caches.insmfh.get(current)` in Python: `none` when the key is absent,
otherwise the stored `Optional` value. -/
def insmfh_get (m : List (Str × Option Str)) (k : Str) : Option Str :=
  match m.lookup k with
  | none => none
  | some v => v

/-- One advance of the supersession loop body:
`ssuper = caches.insmfh.get(current); if not ssuper: ... ` — the result is
`none` exactly when `ssuper` is Python-falsy (absent, `None`, or `""`),
otherwise the next key. -/
def stepT (m : List (Str × Option Str)) (k : Str) : Option Str :=
  match insmfh_get m k with
  | none => none
  | some s => if s = [] then none else some s

/-- Keys of an association list. -/
def keysOf (m : List (Str × Option Str)) : List Str := m.map Prod.fst

theorem mem_keys_of_lookup {β : Type} (l : List (Str × β)) (k : Str) (v : β)
    (h : l.lookup k = some v) : k ∈ l.map Prod.fst := by
  induction l with
  | nil => simp [List.lookup] at h
  | cons p l ih =>
    obtain ⟨a, b⟩ := p
    rw [List.lookup] at h
    by_cases hk : (k == a) = true
    · simp only [List.map_cons]
      exact List.mem_cons.mpr (Or.inl (eq_of_beq hk))
    · have hk2 : (k == a) = false := by simpa using hk
      rw [hk2] at h
      simp only [List.map_cons]
      exact List.mem_cons.mpr (Or.inr (ih h))

theorem stepT_mem_keys {m : List (Str × Option Str)} {k s : Str}
    (h : stepT m k = some s) : k ∈ keysOf m := by
  unfold stepT insmfh_get at h
  cases hl : m.lookup k with
  | none => rw [hl] at h; simp at h
  | some v => exact mem_keys_of_lookup m k v hl

theorem length_filter_mono (l : List Str) (p q : Str → Bool)
    (hpq : ∀ k, p k = true → q k = true) :
    (l.filter p).length ≤ (l.filter q).length := by
  induction l with
  | nil => exact Nat.le_refl _
  | cons x l ih =>
    rw [List.filter_cons, List.filter_cons]
    by_cases hp : p x = true
    · rw [hp, hpq x hp]
      simpa using ih
    · have hp2 : p x = false := by simpa using hp
      rw [hp2]
      by_cases hq : q x = true
      · rw [hq]
        simp only [List.length_cons]
        exact Nat.le_succ_of_le ih
      · have hq2 : q x = false := by simpa using hq
        rw [hq2]
        simpa using ih

/-- The measure that makes the supersession loop terminate: the number of
map keys not yet visited. -/
def unvisited (m : List (Str × Option Str)) (visited : List Str) : Nat :=
  ((keysOf m).filter (fun k => !decide (k ∈ visited))).length

theorem length_filter_notmem_cons_lt (l : List Str) (a : Str) (visited : List Str)
    (hnv : a ∉ visited) (hmem : a ∈ l) :
    (l.filter (fun k => !decide (k ∈ a :: visited))).length <
      (l.filter (fun k => !decide (k ∈ visited))).length := by
  have hmono : ∀ k, (!decide (k ∈ a :: visited)) = true → (!decide (k ∈ visited)) = true := by
    intro k hk
    simp only [Bool.not_eq_true', decide_eq_false_iff_not, List.mem_cons] at hk ⊢
    exact fun hv => hk (Or.inr hv)
  induction l with
  | nil => cases hmem
  | cons x l ih =>
    rw [List.filter_cons, List.filter_cons]
    rcases List.mem_cons.mp hmem with hxa | hal
    · subst hxa
      have h2 : (!decide (a ∈ a :: visited)) = false := by simp
      have h1 : (!decide (a ∈ visited)) = true := by simpa using hnv
      rw [h2, h1]
      simp only [List.length_cons]
      exact Nat.lt_succ_of_le (length_filter_mono l _ _ hmono)
    · by_cases h2 : (!decide (x ∈ a :: visited)) = true
      · rw [h2, hmono x h2]
        simp only [List.length_cons]
        exact Nat.succ_lt_succ (ih hal)
      · have h2f : (!decide (x ∈ a :: visited)) = false := by simpa using h2
        rw [h2f]
        by_cases h1 : (!decide (x ∈ visited)) = true
        · rw [h1]
          simp only [List.length_cons]
          exact Nat.lt_succ_of_lt (ih hal)
        · have h1f : (!decide (x ∈ visited)) = false := by simpa using h1
          rw [h1f]
          exact ih hal

theorem unvisited_decreases {m : List (Str × Option Str)} {visited : List Str}
    {current : Str} (hmem : current ∈ keysOf m) (hnv : current ∉ visited) :
    unvisited m (current :: visited) < unvisited m visited :=
  length_filter_notmem_cons_lt (keysOf m) current visited hnv hmem

/-- The `while True` loop of `resolve_supersession_chain`, returning the
final key together with the number of advances (`current = ssuper`
assignments) performed.  Exits: the current key was already visited
(cycle guard), or its mapped value is Python-falsy (terminal). -/
def walk_aux (m : List (Str × Option Str)) (visited : List Str) (current : Str) :
    Str × Nat :=
  if current ∈ visited then (current, 0)
  else
    match h : stepT m current with
    | none => (current, 0)
    | some s =>
      let r := walk_aux m (current :: visited) s
      (r.1, r.2 + 1)
termination_by unvisited m visited
decreasing_by
  exact unvisited_decreases (stepT_mem_keys h) (by assumption)

/-- `resolve_supersession_chain(caches, start)`. -/
def resolve_supersession_chain (caches : DataCaches) (start : Str) : Str :=
  let current := normalize_part_number (some start)
  if current = [] then current
  else
    match caches.insmfh.lookup current with
    | none => current
    | some _ => (walk_aux caches.insmfh [] current).1

/-- `resolve_master_number(caches, snschr)`. -/
def resolve_master_number (caches : DataCaches) (snschr : Str) : Option Str :=
  let key := normalize_part_number (some snschr)
  if key = [] then none
  else
    let base := (caches.ininter.lookup key).getD key
    let master := resolve_supersession_chain caches base
    if master = [] then none
    else if (caches.ininter.lookup key).isSome || (caches.insmfh.lookup master).isSome
    then some master
    else none

/-- `parse_decimal(original)`: if the input contains a `.` (code 46) and the
text after the first `.` is non-empty and all digits, return the
`(before, after)` split, else `none`. -/
def parse_decimal (original : Str) : Option (Str × Str) :=
  if 46 ∈ original then
    let before := original.takeWhile (fun c => !(c == 46))
    let after := original.drop (before.length + 1)
    if after = [] ∨ ¬(after.all (fun c => 48 ≤ c && c ≤ 57) = true) then none
    else some (before, after)
  else none

/-- `DECIMAL_ALLOWED_PAD_LENGTHS = (2, 3)`. -/
def DECIMAL_ALLOWED_PAD_LENGTHS : List Nat := [2, 3]

/-- The loop that deduplicates the variant list while preserving order
(`seen` set plus `uniq` accumulator in the source). -/
def dedup_aux (seen : List Str) : List Str → List Str
  | [] => []
  | v :: vs => if v ∈ seen then dedup_aux seen vs else v :: dedup_aux (v :: seen) vs

def dedup_keep_first (l : List Str) : List Str := dedup_aux [] l

/-- `generate_decimal_variants(original_input)`: the exact merge, then
zero-padded merges for each allowed length greater than `len(after)`,
deduplicated preserving order. -/
def generate_decimal_variants (original_input : Str) : List Str :=
  match parse_decimal original_input with
  | none => []
  | some (before, after) =>
    let variants :=
      (before ++ after) ::
        (DECIMAL_ALLOWED_PAD_LENGTHS.filter (fun L => after.length < L)).map
          (fun L => before ++ (after ++ List.replicate (L - after.length) 48))
    dedup_keep_first variants

/-- The `ToggleActive` value `"Yes"` as code points. -/
def YES_CODES : Str := [89, 101, 115]

/-- Interpretation of the FileMaker point query result: no row is
`None` (unknown), a row is Active exactly when `ToggleActive == "Yes"`. -/
def fm_value (caches : DataCaches) (key : Str) : Option Bool :=
  match caches.fm_source key with
  | none => none
  | some toggle => some (decide (toggle = YES_CODES))

/-- `DataCaches.fm_find_active_flag(snschr)`: tri-state FileMaker status
lookup with memoization.  The result triple is the returned value, the
caches after the call (the memo may have grown), and the number of
external FileMaker queries issued by this call (0 or 1). -/
def fm_find_active_flag (caches : DataCaches) (snschr : Str) :
    Option Bool × DataCaches × Nat :=
  let key := normalize_part_number (some snschr)
  if key = [] then (none, caches, 0)
  else
    match caches.fm_active_cache.lookup key with
    | some v => (v, caches, 0)
    | none =>
      (fm_value caches key,
       { caches with fm_active_cache := (key, fm_value caches key) :: caches.fm_active_cache },
       1)

/-- The per-input result dict built by `evaluate_part`. -/
structure ResolutionResult where
  Supplied : Str
  VendorFlag : Bool
  VendorInternal : Option Str
  LeadingZeroRemoved : Option Str
  DecimalVariantUsed : Option Str
  AS400Found : Bool
  MasterNumber : Option Str
  FMFound : Bool
  FMActive : Option Bool
deriving DecidableEq

/-- The decimal-variant loop of `evaluate_part` step 4: walk the variant
list in order, skip variants normalizing to empty, and return the first
master found together with the normalized variant that produced it. -/
def try_decimal_variants (caches : DataCaches) : List Str → Option (Str × Str)
  | [] => none
  | v :: vs =>
    let nv := normalize_part_number (some v)
    if nv = [] then try_decimal_variants caches vs
    else
      let m2 := resolve_master_number caches nv
      if truthyS m2 then some (m2.getD [], nv)
      else try_decimal_variants caches vs

/-- Step 3 of `evaluate_part`: `if not master and candidate and
candidate.startswith("0")`, strip leading zeros and, if the stripped
candidate is non-empty and resolves, take its master and record the
stripped candidate.  Returns the master after this step together with
the `LeadingZeroRemoved` field. -/
def leading_zero_stage (caches : DataCaches) (master2 : Option Str) (candidate : Str) :
    Option Str × Option Str :=
  if ¬truthyS master2 = true ∧ candidate ≠ [] ∧ candidate.head? = some 48 then
    let stripped := candidate.dropWhile (fun c => c == 48)
    if stripped ≠ [] then
      let m2 := resolve_master_number caches stripped
      if truthyS m2 then (m2, some stripped) else (master2, none)
    else (master2, none)
  else (master2, none)

/-- Step 4 of `evaluate_part`: `if not master and not result["VendorFlag"]`,
run the decimal-variant loop on the original supplied string.  Returns
the master after this step together with the `DecimalVariantUsed` field. -/
def decimal_stage (caches : DataCaches) (supplied : Str) (vendorFlag : Bool)
    (master3 : Option Str) : Option Str × Option Str :=
  if ¬truthyS master3 = true ∧ vendorFlag = false then
    match try_decimal_variants caches (generate_decimal_variants supplied) with
    | some (m2, nv) => (some m2, some nv)
    | none => (master3, none)
  else (master3, none)

/-- Steps 1-2 of `evaluate_part`: the vendor flag
(`if vendor_internal: result["VendorFlag"] = True`). -/
def vendorFlag_of (caches : DataCaches) (supplied : Str) : Bool :=
  truthyS (resolve_vendor_internal caches supplied)

/-- Steps 1-2 of `evaluate_part`: the candidate
(`candidate = vendor_internal` when the vendor lookup is truthy,
otherwise the normalized supplied string). -/
def candidate_of (caches : DataCaches) (supplied : Str) : Str :=
  if vendorFlag_of caches supplied then (resolve_vendor_internal caches supplied).getD []
  else normalize_part_number (some supplied)

/-- Step 2 of `evaluate_part`:
`master = None; if candidate: master = resolve_master_number(candidate)`. -/
def master2_of (caches : DataCaches) (supplied : Str) : Option Str :=
  if candidate_of caches supplied ≠ []
  then resolve_master_number caches (candidate_of caches supplied)
  else none

/-- Steps 2-3 of `evaluate_part` combined: master and `LeadingZeroRemoved`
after the leading-zero heuristic. -/
def stage3_of (caches : DataCaches) (supplied : Str) : Option Str × Option Str :=
  leading_zero_stage caches (master2_of caches supplied) (candidate_of caches supplied)

/-- Steps 2-4 of `evaluate_part` combined: master and `DecimalVariantUsed`
after the decimal heuristic. -/
def stage4_of (caches : DataCaches) (supplied : Str) : Option Str × Option Str :=
  decimal_stage caches supplied (vendorFlag_of caches supplied) (stage3_of caches supplied).1

/-- `evaluate_part(caches, supplied)`: the full per-item cascade.  Returns
the result record together with the caches after the call (the FileMaker
memo grows when the status of a found master is looked up). -/
def evaluate_part (caches : DataCaches) (supplied : Str) :
    ResolutionResult × DataCaches :=
  let master := (stage4_of caches supplied).1
  -- 5) If a master was found, update AS400 and FM info
  if truthyS master then
    let fm := fm_find_active_flag caches (master.getD [])
    ({ Supplied := supplied
       VendorFlag := vendorFlag_of caches supplied
       VendorInternal := if vendorFlag_of caches supplied
                         then resolve_vendor_internal caches supplied else none
       LeadingZeroRemoved := (stage3_of caches supplied).2
       DecimalVariantUsed := (stage4_of caches supplied).2
       AS400Found := true
       MasterNumber := master
       FMFound := fm.1.isSome
       FMActive := fm.1 }, fm.2.1)
  else
    ({ Supplied := supplied
       VendorFlag := vendorFlag_of caches supplied
       VendorInternal := if vendorFlag_of caches supplied
                         then resolve_vendor_internal caches supplied else none
       LeadingZeroRemoved := (stage3_of caches supplied).2
       DecimalVariantUsed := (stage4_of caches supplied).2
       AS400Found := false
       MasterNumber := none
       FMFound := false
       FMActive := none }, caches)

/-! ## Unfolding lemmas for the supersession walk -/

theorem walk_aux_of_mem {m : List (Str × Option Str)} {visited : List Str} {current : Str}
    (h : current ∈ visited) : walk_aux m visited current = (current, 0) := by
  rw [walk_aux, if_pos h]

theorem walk_aux_of_none {m : List (Str × Option Str)} {visited : List Str} {current : Str}
    (h1 : current ∉ visited) (h2 : stepT m current = none) :
    walk_aux m visited current = (current, 0) := by
  rw [walk_aux, if_neg h1]
  split
  · rfl
  · rename_i s heq
    rw [h2] at heq
    cases heq

theorem walk_aux_of_some {m : List (Str × Option Str)} {visited : List Str} {current s : Str}
    (h1 : current ∉ visited) (h2 : stepT m current = some s) :
    walk_aux m visited current =
      ((walk_aux m (current :: visited) s).1, (walk_aux m (current :: visited) s).2 + 1) := by
  rw [walk_aux, if_neg h1]
  split
  · rename_i heq
    rw [h2] at heq
    cases heq
  · rename_i s2 heq
    rw [h2] at heq
    cases heq
    rfl

theorem walk_aux_some_eq {m : List (Str × Option Str)} {visited : List Str} {current s : Str}
    {r : Str × Nat} (h1 : current ∉ visited) (h2 : stepT m current = some s)
    (h3 : walk_aux m (current :: visited) s = r) :
    walk_aux m visited current = (r.1, r.2 + 1) := by
  rw [walk_aux_of_some h1 h2, h3]

/-! ## The walker as the specification words it (for comparison)

Spec §4.3: "at each step, look up the current key in SupersessionMap; if
the mapped value is empty/absent, the current key is terminal — return
it; otherwise advance to the mapped value.  Before each advance, check a
visited-set of keys seen in this walk; if the next key was already
visited, stop and return the current key."  Here `visited` is the set of
keys seen so far (the current key included). -/

def walk_spec_aux (m : List (Str × Option Str)) (visited : List Str) (current : Str) : Str :=
  match h : stepT m current with
  | none => current
  | some s =>
    if s ∈ visited then current
    else walk_spec_aux m (s :: visited) s
termination_by 2 * unvisited m visited + (if current ∈ keysOf m then 1 else 0)
decreasing_by
  rename_i hnv
  have hcur : current ∈ keysOf m := stepT_mem_keys h
  rw [if_pos hcur]
  by_cases hs : s ∈ keysOf m
  · have hlt : unvisited m (s :: visited) < unvisited m visited :=
      unvisited_decreases hs hnv
    have hb : (if s ∈ keysOf m then 1 else 0) ≤ 1 := by
      split <;> omega
    omega
  · have heq : unvisited m (s :: visited) = unvisited m visited := by
      unfold unvisited
      congr 1
      apply List.filter_congr
      intro k hk
      have hks : k ≠ s := fun hEq => hs (hEq ▸ hk)
      simp [List.mem_cons, hks]
    rw [if_neg hs]
    omega

/-- Spec §4.3 walker, outer part: empty start and start-not-a-key cases. -/
def walk_spec (caches : DataCaches) (start : Str) : Str :=
  let current := normalize_part_number (some start)
  if current = [] then current
  else
    match caches.insmfh.lookup current with
    | none => current
    | some _ => walk_spec_aux caches.insmfh [current] current

theorem walk_spec_aux_of_none {m : List (Str × Option Str)} {visited : List Str}
    {current : Str} (h : stepT m current = none) :
    walk_spec_aux m visited current = current := by
  rw [walk_spec_aux]
  split
  · rfl
  · rename_i s heq
    rw [h] at heq
    cases heq

theorem walk_spec_aux_of_stop {m : List (Str × Option Str)} {visited : List Str}
    {current s : Str} (h : stepT m current = some s) (hs : s ∈ visited) :
    walk_spec_aux m visited current = current := by
  rw [walk_spec_aux]
  split
  · rfl
  · rename_i s2 heq
    rw [h] at heq
    cases heq
    rw [if_pos hs]

theorem walk_spec_aux_of_step {m : List (Str × Option Str)} {visited : List Str}
    {current s : Str} (h : stepT m current = some s) (hs : s ∉ visited) :
    walk_spec_aux m visited current = walk_spec_aux m (s :: visited) s := by
  rw [walk_spec_aux]
  split
  · rename_i heq
    rw [h] at heq
    cases heq
  · rename_i s2 heq
    rw [h] at heq
    cases heq
    rw [if_neg hs]

/-! ## The resolution cascade as the specification words it (§4.4)

A second definition of the per-item cascade, written from the five
numbered bullets of spec §4.4, to be compared with `evaluate_part`.
Output: (vendor-flag, master, leading-zero candidate recorded, decimal
variant recorded). -/

/-- Spec §4.4 stage 4 loop: "for each variant ... in generation order,
attempt `resolve_master(normalize(variant))`; stop at the first success
and record which variant worked." -/
def first_success (caches : DataCaches) : List Str → Option (Str × Str)
  | [] => none
  | v :: vs =>
    match resolve_master_number caches (normalize_part_number (some v)) with
    | some m => some (m, normalize_part_number (some v))
    | none => first_success caches vs

def cascade_spec (caches : DataCaches) (supplied : Str) :
    Bool × Option Str × Option Str × Option Str :=
  -- stage 1: vendor
  let vendorRes := resolve_vendor_internal caches supplied
  let vendorFlag := vendorRes.isSome
  let candidate :=
    match vendorRes with
    | some internal => internal
    | none => normalize_part_number (some supplied)
  -- stage 2: direct
  match resolve_master_number caches candidate with
  | some m => (vendorFlag, some m, none, none)
  | none =>
    -- stage 3: leading zero (only if stage 2 failed and candidate starts with "0")
    let lz : Option (Str × Str) :=
      if candidate.head? = some 48 then
        let stripped := candidate.dropWhile (fun c => c == 48)
        if stripped ≠ [] then
          match resolve_master_number caches stripped with
          | some m => some (m, stripped)
          | none => none
        else none
      else none
    match lz with
    | some (m, stripped) => (vendorFlag, some m, some stripped, none)
    | none =>
      -- stage 4: decimal (only if stages 2-3 failed and vendor-flag is false)
      if vendorFlag then (vendorFlag, none, none, none)
      else
        match first_success caches (generate_decimal_variants supplied) with
        | some (m, nv) => (vendorFlag, some m, none, some nv)
        | none => (vendorFlag, none, none, none)

/-! ## The step chain of the supersession walk -/

/-- The sequence of keys reached from `c` by iterating the truthy
supersession step; `none` once the chain has hit a terminal key. -/
def chainO (m : List (Str × Option Str)) (c : Str) : Nat → Option Str
  | 0 => some c
  | n + 1 => (chainO m c n).bind (stepT m)

/-- The visited list built by the walk after `t` iterations. -/
def visList (m : List (Str × Option Str)) (c : Str) : Nat → List Str
  | 0 => []
  | t + 1 => (chainO m c t).getD [] :: visList m c t

/-- `repAt m c j`: the chain from `c` is still alive at step `j` and the
key at step `j` already occurred strictly earlier. -/
def repAt (m : List (Str × Option Str)) (c : Str) (j : Nat) : Bool :=
  ((List.range j).any (fun i => chainO m c i == chainO m c j)) && (chainO m c j).isSome

/-! ## Concrete cache states used as witnesses and counterexamples -/

/-- A supersession map with the 2-cycle `A → B → A`. -/
def caches2 : DataCaches :=
  { insmfh := [([65], some [66]), ([66], some [65])]
    ininter := []
    vendor_map := []
    fm_active_cache := []
    fm_source := fun _ => none }

/-- A supersession map with the 3-cycle `A → B → C → A`. -/
def caches3 : DataCaches :=
  { insmfh := [([65], some [66]), ([66], some [67]), ([67], some [65])]
    ininter := []
    vendor_map := []
    fm_active_cache := []
    fm_source := fun _ => none }

/-! ## Normalizer lemmas -/

theorem isAlnumCode_iff (c : Nat) :
    isAlnumCode c = true ↔
      ((65 ≤ c ∧ c ≤ 90) ∨ (97 ≤ c ∧ c ≤ 122) ∨ (48 ≤ c ∧ c ≤ 57)) := by
  simp [isAlnumCode]
  tauto

theorem toUpperCode_mem_class {c : Nat} (h : isAlnumCode c = true) :
    (48 ≤ toUpperCode c ∧ toUpperCode c ≤ 57) ∨
      (65 ≤ toUpperCode c ∧ toUpperCode c ≤ 90) := by
  rw [isAlnumCode_iff] at h
  by_cases hg : (97 ≤ c && c ≤ 122) = true
  · rw [toUpperCode, if_pos hg]
    simp only [Bool.and_eq_true, decide_eq_true_eq] at hg
    omega
  · rw [toUpperCode, if_neg hg]
    simp only [Bool.and_eq_true, decide_eq_true_eq, not_and] at hg
    rcases h with h | h | h
    · omega
    · exact absurd (hg h.1) (by omega)
    · omega

/-- Every character of a normalized string is a digit or an uppercase
letter. -/
theorem mem_normalize {s : Str} {c : Nat} (h : c ∈ normalize_part_number (some s)) :
    (48 ≤ c ∧ c ≤ 57) ∨ (65 ≤ c ∧ c ≤ 90) := by
  simp only [normalize_part_number, List.mem_map, List.mem_filter] at h
  obtain ⟨d, ⟨_, hda⟩, rfl⟩ := h
  exact toUpperCode_mem_class hda

/-- A string of digits and uppercase letters is a fixed point of the
normalizer. -/
theorem normalize_fixed {s : Str}
    (h : ∀ c ∈ s, (48 ≤ c ∧ c ≤ 57) ∨ (65 ≤ c ∧ c ≤ 90)) :
    normalize_part_number (some s) = s := by
  induction s with
  | nil => rfl
  | cons x s ih =>
    have hx := h x (List.mem_cons_self x s)
    have hax : isAlnumCode x = true := by
      rw [isAlnumCode_iff]; omega
    have hux : toUpperCode x = x := by
      rw [toUpperCode, if_neg]
      simp only [Bool.and_eq_true, decide_eq_true_eq, not_and]
      omega
    have ihs : normalize_part_number (some s) = s :=
      ih (fun c hc => h c (List.mem_cons_of_mem _ hc))
    simp only [normalize_part_number, List.filter_cons, hax, if_pos, List.map_cons, hux]
    simpa [normalize_part_number] using ihs

theorem normalize_idem (x : Option Str) :
    normalize_part_number (some (normalize_part_number x)) = normalize_part_number x := by
  cases x with
  | none => rfl
  | some s => exact normalize_fixed (fun c hc => mem_normalize hc)

/-! ## Step-count bound for the walk -/

theorem walk_aux_steps_le_aux (m : List (Str × Option Str)) :
    ∀ (n : Nat) (visited : List Str) (current : Str), unvisited m visited ≤ n →
      (walk_aux m visited current).2 ≤ unvisited m visited := by
  intro n
  induction n with
  | zero =>
    intro visited current h0
    by_cases hIn : current ∈ visited
    · rw [walk_aux_of_mem hIn]
      exact Nat.zero_le _
    · cases hstep : stepT m current with
      | none =>
        rw [walk_aux_of_none hIn hstep]
        exact Nat.zero_le _
      | some s =>
        exfalso
        have := unvisited_decreases (stepT_mem_keys hstep) hIn
        omega
  | succ n ih =>
    intro visited current h
    by_cases hIn : current ∈ visited
    · rw [walk_aux_of_mem hIn]
      exact Nat.zero_le _
    · cases hstep : stepT m current with
      | none =>
        rw [walk_aux_of_none hIn hstep]
        exact Nat.zero_le _
      | some s =>
        rw [walk_aux_of_some hIn hstep]
        have hd := unvisited_decreases (stepT_mem_keys hstep) hIn
        have hs := ih (current :: visited) s (by omega)
        simp only []
        omega

theorem walk_aux_steps_le (m : List (Str × Option Str)) (visited : List Str)
    (current : Str) : (walk_aux m visited current).2 ≤ unvisited m visited :=
  walk_aux_steps_le_aux m (unvisited m visited) visited current (Nat.le_refl _)

theorem unvisited_le_length (m : List (Str × Option Str)) (visited : List Str) :
    unvisited m visited ≤ m.length := by
  unfold unvisited keysOf
  exact Nat.le_trans (List.length_filter_le _ _) (Nat.le_of_eq (List.length_map _ _))

/-! ## Claim theorems -/

/-- **C5** — For every SupersessionMap the supersession walk performs at
most `|SupersessionMap|` advance steps, and started on the first key of a
3-cycle `A → B → C → A` of distinct non-empty normalized keys it
terminates and returns one of `{A, B, C}`. -/
theorem C5_walk_terminates_bounded :
    (∀ (m : List (Str × Option Str)) (visited : List Str) (current : Str),
        (walk_aux m visited current).2 ≤ m.length) ∧
    (∀ (caches : DataCaches) (a b c : Str),
        caches.insmfh = [(a, some b), (b, some c), (c, some a)] →
        normalize_part_number (some a) = a →
        a ≠ [] → b ≠ [] → c ≠ [] → a ≠ b → b ≠ c → a ≠ c →
        resolve_supersession_chain caches a ∈ [a, b, c]) := by
  constructor
  · intro m visited current
    exact Nat.le_trans (walk_aux_steps_le m visited current) (unvisited_le_length m visited)
  · intro caches a b c hm hnorm ha hb hc hab hbc hac
    have hba' : b ≠ a := Ne.symm hab
    have hca' : c ≠ a := Ne.symm hac
    have hcb' : c ≠ b := Ne.symm hbc
    have hba : (b == a) = false := by simp [hba']
    have hca : (c == a) = false := by simp [hca']
    have hcb : (c == b) = false := by simp [hcb']
    have la : caches.insmfh.lookup a = some (some b) := by
      rw [hm]; simp [List.lookup]
    have lb : caches.insmfh.lookup b = some (some c) := by
      rw [hm]; simp [List.lookup, hba]
    have lc : caches.insmfh.lookup c = some (some a) := by
      rw [hm]; simp [List.lookup, hca, hcb]
    have sa : stepT caches.insmfh a = some b := by
      rw [stepT, insmfh_get, la]; simp [hb]
    have sb : stepT caches.insmfh b = some c := by
      rw [stepT, insmfh_get, lb]; simp [hc]
    have sc : stepT caches.insmfh c = some a := by
      rw [stepT, insmfh_get, lc]; simp [ha]
    have t3 : walk_aux caches.insmfh [c, b, a] a = (a, 0) :=
      walk_aux_of_mem (by simp)
    have t2 : walk_aux caches.insmfh [b, a] c = (a, 1) :=
      walk_aux_some_eq (by simp [hca', hcb']) sc t3
    have t1 : walk_aux caches.insmfh [a] b = (a, 2) :=
      walk_aux_some_eq (by simp [hba']) sb t2
    have t0 : walk_aux caches.insmfh [] a = (a, 3) :=
      walk_aux_some_eq (by simp) sa t1
    rw [resolve_supersession_chain]
    rw [hnorm, if_neg ha, la, t0]
    simp

/-- Witness for C5: the step bound on the 2-cycle map and the 3-cycle
behaviour on `caches3` (`A → B → C → A` over codes 65, 66, 67). -/
theorem C5_witness :
    (walk_aux caches2.insmfh [] [65]).2 ≤ caches2.insmfh.length ∧
    resolve_supersession_chain caches3 [65] ∈ [[65], [66], [67]] :=
  ⟨C5_walk_terminates_bounded.1 caches2.insmfh [] [65],
   C5_walk_terminates_bounded.2 caches3 [65] [66] [67] rfl (by decide) (by decide)
     (by decide) (by decide) (by decide) (by decide) (by decide)⟩

/-! ## C2: cycle guard of the supersession walk -/

/-- **C2 counterexample** — On the 2-cycle `A → B → A` started at `A`
(`A = [65]`, `B = [66]`), the walk of spec §4.3 — stop *before* the
advance whose target was already visited and return the pre-advance
key, "the last key before the cycle was detected" — returns `B`, while
the code (which checks *after* advancing) returns the advanced-to
repeated key `A`.  The claim is therefore false as stated. -/
theorem C2_counterexample :
    walk_spec caches2 [65] = [66] ∧
    resolve_supersession_chain caches2 [65] = [65] ∧
    ([66] : Str) ≠ [65] := by
  refine ⟨?_, ?_, by decide⟩
  · show walk_spec_aux caches2.insmfh [[65]] [65] = [66]
    rw [walk_spec_aux_of_step (s := [66]) (by rfl) (by decide)]
    rw [walk_spec_aux_of_stop (s := [65]) (by rfl) (by decide)]
  · show (walk_aux caches2.insmfh [] [65]).1 = [65]
    have t2 : walk_aux caches2.insmfh [[66], [65]] [65] = ([65], 0) :=
      walk_aux_of_mem (by decide)
    have t1 : walk_aux caches2.insmfh [[65]] [66] = ([65], 1) :=
      walk_aux_some_eq (s := [65]) (by decide) (by rfl) t2
    have t0 : walk_aux caches2.insmfh [] [65] = ([65], 2) :=
      walk_aux_some_eq (s := [66]) (by decide) (by rfl) t1
    rw [t0]

theorem chainO_succ_isSome {m : List (Str × Option Str)} {c : Str} {n : Nat}
    (h : (chainO m c (n + 1)).isSome = true) : (chainO m c n).isSome = true := by
  cases hc : chainO m c n with
  | none =>
    rw [chainO, hc] at h
    simp at h
  | some k => simp

theorem chainO_isSome_mono {m : List (Str × Option Str)} {c : Str} {i j : Nat}
    (hij : i ≤ j) (h : (chainO m c j).isSome = true) :
    (chainO m c i).isSome = true := by
  induction j with
  | zero =>
    have h0 : i = 0 := Nat.le_zero.mp hij
    subst h0
    exact h
  | succ j ih =>
    by_cases hi : i = j + 1
    · subst hi; exact h
    · exact ih (by omega) (chainO_succ_isSome h)

theorem mem_visList {m : List (Str × Option Str)} {c : Str} {i t : Nat} (h : i < t) :
    (chainO m c i).getD [] ∈ visList m c t := by
  induction t with
  | zero => omega
  | succ t ih =>
    rw [visList]
    by_cases hit : i = t
    · subst hit
      exact List.mem_cons_self _ _
    · exact List.mem_cons_of_mem _ (ih (by omega))

theorem visList_mem {m : List (Str × Option Str)} {c : Str} {t : Nat} {x : Str}
    (h : x ∈ visList m c t) : ∃ i, i < t ∧ (chainO m c i).getD [] = x := by
  induction t with
  | zero => cases h
  | succ t ih =>
    rw [visList] at h
    rcases List.mem_cons.mp h with h | h
    · exact ⟨t, Nat.lt_succ_self t, h.symm⟩
    · obtain ⟨i, hi, hx⟩ := ih h
      exact ⟨i, Nat.lt_succ_of_lt hi, hx⟩

/-- The walk started on `c` with an empty visited set follows the step
chain and, when the chain repeats a key, stops exactly at the first
repetition and returns that repeated key. -/
theorem walk_reaches_first_rep (m : List (Str × Option Str)) (c : Str)
    (hex : ∃ j, repAt m c j = true) :
    ∀ (d t : Nat), t + d = Nat.find hex →
      walk_aux m (visList m c t) ((chainO m c t).getD []) =
        ((chainO m c (Nat.find hex)).getD [], d) := by
  have hKspec : repAt m c (Nat.find hex) = true := Nat.find_spec hex
  have hKmin : ∀ t, t < Nat.find hex → repAt m c t = false := by
    intro t ht
    have := Nat.find_min hex ht
    simpa using this
  rw [repAt, Bool.and_eq_true] at hKspec
  have hKsome : (chainO m c (Nat.find hex)).isSome = true := hKspec.2
  have hKrep : ∃ i, i < Nat.find hex ∧ chainO m c i = chainO m c (Nat.find hex) := by
    have := hKspec.1
    simp only [List.any_eq_true, List.mem_range, beq_iff_eq] at this
    exact this
  intro d
  induction d with
  | zero =>
    intro t ht
    have htK : t = Nat.find hex := by omega
    obtain ⟨i, hiK, hie⟩ := hKrep
    have hval : (chainO m c i).getD [] = (chainO m c (Nat.find hex)).getD [] := by
      rw [hie]
    have hmem : (chainO m c (Nat.find hex)).getD [] ∈ visList m c (Nat.find hex) := by
      rw [← hval]
      exact mem_visList hiK
    rw [htK, walk_aux_of_mem hmem]
  | succ d ih =>
    intro t ht
    have htK : t < Nat.find hex := by omega
    have h1 : (chainO m c (t + 1)).isSome = true :=
      chainO_isSome_mono (by omega) hKsome
    have h0 : (chainO m c t).isSome = true :=
      chainO_isSome_mono (by omega) hKsome
    obtain ⟨kt, hkt⟩ := Option.isSome_iff_exists.mp h0
    obtain ⟨kt1, hkt1⟩ := Option.isSome_iff_exists.mp h1
    have hstep : stepT m kt = some kt1 := by
      have hch : chainO m c (t + 1) = (chainO m c t).bind (stepT m) := rfl
      rw [hkt, Option.some_bind] at hch
      rw [← hch, hkt1]
    have hnv : kt ∉ visList m c t := by
      intro hmem
      obtain ⟨i, hit, hie⟩ := visList_mem hmem
      have hi_some : (chainO m c i).isSome = true :=
        chainO_isSome_mono (by omega) hKsome
      obtain ⟨ki, hki⟩ := Option.isSome_iff_exists.mp hi_some
      have hieq : chainO m c i = chainO m c t := by
        rw [hki, hkt]
        rw [hki] at hie
        simp only [Option.getD_some] at hie
        rw [hie]
      have : repAt m c t = true := by
        rw [repAt, Bool.and_eq_true]
        refine ⟨?_, h0⟩
        simp only [List.any_eq_true, List.mem_range, beq_iff_eq]
        exact ⟨i, hit, hieq⟩
      rw [hKmin t htK] at this
      cases this
    have hrec := ih (t + 1) (by omega)
    have hvl : visList m c (t + 1) = kt :: visList m c t := by
      rw [visList, hkt]
      simp
    rw [hvl, hkt1] at hrec
    simp only [Option.getD_some] at hrec
    have := walk_aux_some_eq hnv hstep hrec
    rw [hkt]
    simp only [Option.getD_some]
    rw [this]

/-- **C2 (amended)** — For every SupersessionMap whose step chain from
the (normalized, non-empty) start key eventually repeats a key (in
particular whenever a cycle is reachable from the start key), the
supersession walk terminates without error and returns the key at the
*first repetition point* of the chain — the key that was just advanced
to and found already visited — rather than the key visited immediately
before the repetition was detected. -/
theorem C2_amended_theorem (caches : DataCaches) (start : Str)
    (h0 : normalize_part_number (some start) ≠ [])
    (hcyc : ∃ j, repAt caches.insmfh (normalize_part_number (some start)) j = true) :
    resolve_supersession_chain caches start =
      (chainO caches.insmfh (normalize_part_number (some start)) (Nat.find hcyc)).getD [] ∧
    ∃ i, i < Nat.find hcyc ∧
      chainO caches.insmfh (normalize_part_number (some start)) i =
        chainO caches.insmfh (normalize_part_number (some start)) (Nat.find hcyc) := by
  have hKspec : repAt caches.insmfh (normalize_part_number (some start))
      (Nat.find hcyc) = true := Nat.find_spec hcyc
  rw [repAt, Bool.and_eq_true] at hKspec
  have hKsome := hKspec.2
  have hKrep : ∃ i, i < Nat.find hcyc ∧
      chainO caches.insmfh (normalize_part_number (some start)) i =
        chainO caches.insmfh (normalize_part_number (some start)) (Nat.find hcyc) := by
    have := hKspec.1
    simp only [List.any_eq_true, List.mem_range, beq_iff_eq] at this
    exact this
  refine ⟨?_, hKrep⟩
  have hK1 : 1 ≤ Nat.find hcyc := by
    rcases Nat.eq_zero_or_pos (Nat.find hcyc) with h | h
    · exfalso
      rw [h] at hKspec
      have := hKspec.1
      simp [List.any_eq_true] at this
    · exact h
  have h1some : (chainO caches.insmfh (normalize_part_number (some start)) 1).isSome = true :=
    chainO_isSome_mono hK1 hKsome
  have hstep1 : ∃ s, stepT caches.insmfh (normalize_part_number (some start)) = some s := by
    have hch : chainO caches.insmfh (normalize_part_number (some start)) 1 =
        stepT caches.insmfh (normalize_part_number (some start)) := by
      rw [chainO, chainO, Option.some_bind]
    rw [hch] at h1some
    exact Option.isSome_iff_exists.mp h1some
  obtain ⟨s, hs⟩ := hstep1
  have hlk : ∃ v, caches.insmfh.lookup (normalize_part_number (some start)) = some v := by
    rw [stepT, insmfh_get] at hs
    cases hl : caches.insmfh.lookup (normalize_part_number (some start)) with
    | none => rw [hl] at hs; cases hs
    | some v => exact ⟨v, rfl⟩
  obtain ⟨v, hv⟩ := hlk
  have hwalk := walk_reaches_first_rep caches.insmfh
    (normalize_part_number (some start)) hcyc (Nat.find hcyc) 0 (by omega)
  rw [resolve_supersession_chain]
  rw [if_neg h0, hv]
  calc (walk_aux caches.insmfh [] (normalize_part_number (some start))).1
      = (walk_aux caches.insmfh (visList caches.insmfh (normalize_part_number (some start)) 0)
          ((chainO caches.insmfh (normalize_part_number (some start)) 0).getD [])).1 := rfl
    _ = (chainO caches.insmfh (normalize_part_number (some start)) (Nat.find hcyc)).getD [] := by
        rw [hwalk]

/-! ## C1: acceptance condition of the master resolver -/

theorem resolve_master_number_eq (caches : DataCaches) (snschr : Str)
    (hk : normalize_part_number (some snschr) ≠ []) :
    resolve_master_number caches snschr =
      (if resolve_supersession_chain caches
          ((caches.ininter.lookup (normalize_part_number (some snschr))).getD
            (normalize_part_number (some snschr))) = [] then none
       else if ((caches.ininter.lookup (normalize_part_number (some snschr))).isSome ||
           (caches.insmfh.lookup (resolve_supersession_chain caches
             ((caches.ininter.lookup (normalize_part_number (some snschr))).getD
               (normalize_part_number (some snschr))))).isSome) = true
       then some (resolve_supersession_chain caches
          ((caches.ininter.lookup (normalize_part_number (some snschr))).getD
            (normalize_part_number (some snschr))))
       else none) := by
  rw [resolve_master_number, if_neg hk]

/-- **C1** — `resolve_master_number` reports a master if and only if the
terminal key returned by the supersession walk (from the interchange
parent when the normalized key is an interchange child, from the key
itself otherwise) is non-empty AND either the normalized key occurs as a
child in the interchange map or the terminal master occurs as a source
key in the supersession map; in every other case — in particular when
the walker merely returned its input unchanged and neither map knows the
key — it returns `none`.  (The hypothesis is the load invariant that the
interchange map has no empty key.) -/
theorem C1_resolve_master_found_iff (caches : DataCaches) (snschr : Str)
    (hwf : caches.ininter.lookup ([] : Str) = none) :
    (resolve_master_number caches snschr).isSome = true ↔
      (resolve_supersession_chain caches
          ((caches.ininter.lookup (normalize_part_number (some snschr))).getD
            (normalize_part_number (some snschr))) ≠ [] ∧
        ((caches.ininter.lookup (normalize_part_number (some snschr))).isSome = true ∨
          (caches.insmfh.lookup (resolve_supersession_chain caches
            ((caches.ininter.lookup (normalize_part_number (some snschr))).getD
              (normalize_part_number (some snschr))))).isSome = true)) := by
  by_cases hk : normalize_part_number (some snschr) = []
  · have hnone : resolve_master_number caches snschr = none := by
      rw [resolve_master_number, if_pos hk]
    rw [hnone, hk, hwf]
    have hrc : resolve_supersession_chain caches [] = [] := rfl
    simp only [Option.getD_none, hrc, ne_eq, not_true_eq_false, false_and, iff_false]
    simp
  · rw [resolve_master_number_eq caches snschr hk]
    split_ifs with h1 h2
    · simp [h1]
    · rw [Bool.or_eq_true] at h2
      exact ⟨fun _ => ⟨h1, h2⟩, fun _ => rfl⟩
    · rw [Bool.or_eq_true] at h2
      constructor
      · intro hfalse
        simp at hfalse
      · rintro ⟨_, hor⟩
        exact absurd hor h2

/-- Witness for C1 on the 3-cycle map: `[65]` resolves (the walk returns
`[65]`, which is a supersession source key). -/
theorem C1_witness :
    (resolve_master_number caches3 [65]).isSome = true ↔
      (resolve_supersession_chain caches3
          ((caches3.ininter.lookup (normalize_part_number (some [65]))).getD
            (normalize_part_number (some [65]))) ≠ [] ∧
        ((caches3.ininter.lookup (normalize_part_number (some [65]))).isSome = true ∨
          (caches3.insmfh.lookup (resolve_supersession_chain caches3
            ((caches3.ininter.lookup (normalize_part_number (some [65]))).getD
              (normalize_part_number (some [65]))))).isSome = true)) :=
  C1_resolve_master_found_iff caches3 [65] rfl

/-- Witness for the amended C2 on the 2-cycle `caches2` started at
`[65]`: the chain repeats first at index 2 (`A, B, A`). -/
theorem C2_amended_witness :
    resolve_supersession_chain caches2 [65] =
      (chainO caches2.insmfh (normalize_part_number (some [65]))
        (Nat.find (⟨2, by decide⟩ :
          ∃ j, repAt caches2.insmfh (normalize_part_number (some [65])) j = true))).getD [] ∧
    ∃ i, i < Nat.find (⟨2, by decide⟩ :
          ∃ j, repAt caches2.insmfh (normalize_part_number (some [65])) j = true) ∧
      chainO caches2.insmfh (normalize_part_number (some [65])) i =
        chainO caches2.insmfh (normalize_part_number (some [65]))
          (Nat.find (⟨2, by decide⟩ :
            ∃ j, repAt caches2.insmfh (normalize_part_number (some [65])) j = true)) :=
  C2_amended_theorem caches2 [65] (by decide) ⟨2, by decide⟩

/-! ## C4: decimal variant generator -/

theorem dedup_aux_sublist (l : List Str) : ∀ seen : List Str, List.Sublist (dedup_aux seen l) l := by
  induction l with
  | nil =>
    intro seen
    rw [dedup_aux]
  | cons v vs ih =>
    intro seen
    rw [dedup_aux]
    by_cases hv : v ∈ seen
    · rw [if_pos hv]
      exact (ih seen).cons v
    · rw [if_neg hv]
      exact (ih (v :: seen)).cons₂ v

theorem dedup_aux_nodup (l : List Str) :
    ∀ seen : List Str, (dedup_aux seen l).Nodup ∧ ∀ x ∈ dedup_aux seen l, x ∉ seen := by
  induction l with
  | nil =>
    intro seen
    rw [dedup_aux]
    exact ⟨List.nodup_nil, by intro x hx; cases hx⟩
  | cons v vs ih =>
    intro seen
    rw [dedup_aux]
    by_cases hv : v ∈ seen
    · rw [if_pos hv]
      exact ih seen
    · rw [if_neg hv]
      obtain ⟨hnd, hns⟩ := ih (v :: seen)
      refine ⟨List.nodup_cons.mpr ⟨?_, hnd⟩, ?_⟩
      · intro hvmem
        exact hns v hvmem (List.mem_cons_self _ _)
      · intro x hx
        rcases List.mem_cons.mp hx with hxv | hxs
        · rw [hxv]; exact hv
        · intro hxseen
          exact hns x hxs (List.mem_cons_of_mem _ hxseen)

theorem dedup_keep_first_nodup (l : List Str) : (dedup_keep_first l).Nodup :=
  (dedup_aux_nodup l []).1

theorem dedup_keep_first_sublist (l : List Str) : List.Sublist (dedup_keep_first l) l :=
  dedup_aux_sublist l []

theorem dedup_keep_first_head (v : Str) (vs : List Str) :
    (dedup_keep_first (v :: vs)).head? = some v := by
  rw [dedup_keep_first, dedup_aux, if_neg (List.not_mem_nil v)]
  rfl

/-- **C4** — `generate_decimal_variants` returns `[]` whenever the input
has no `.` (code 46) or the text after the first `.` is empty or not all
digits; otherwise the result starts with the exact merge, is duplicate
free, and is an order-preserving sublist of `merge :: ascending pads`;
on `"4798878.01"` with pad lengths (2, 3) it is exactly
`["479887801", "4798878010"]`. -/
theorem C4_decimal_variants :
    (∀ s : Str, 46 ∉ s → generate_decimal_variants s = []) ∧
    (∀ s : Str, 46 ∈ s →
      (s.drop ((s.takeWhile (fun c => !(c == 46))).length + 1) = [] ∨
        (s.drop ((s.takeWhile (fun c => !(c == 46))).length + 1)).all
          (fun c => 48 ≤ c && c ≤ 57) = false) →
      generate_decimal_variants s = []) ∧
    (∀ s : Str, (generate_decimal_variants s).Nodup) ∧
    (∀ s b a : Str, parse_decimal s = some (b, a) →
      (generate_decimal_variants s).head? = some (b ++ a) ∧
      List.Sublist (generate_decimal_variants s)
        ((b ++ a) :: (DECIMAL_ALLOWED_PAD_LENGTHS.filter (fun L => a.length < L)).map
          (fun L => b ++ (a ++ List.replicate (L - a.length) 48)))) ∧
    generate_decimal_variants (ofStr "4798878.01") =
      [ofStr "479887801", ofStr "4798878010"] := by
  refine ⟨?_, ?_, ?_, ?_, by decide⟩
  · intro s hdot
    rw [generate_decimal_variants, parse_decimal, if_neg hdot]
  · intro s hdot hbad
    rw [generate_decimal_variants, parse_decimal, if_pos hdot, if_pos]
    rcases hbad with hbad | hbad
    · exact Or.inl hbad
    · exact Or.inr (by rw [hbad]; exact Bool.false_ne_true)
  · intro s
    rw [generate_decimal_variants]
    cases hp : parse_decimal s with
    | none => exact List.nodup_nil
    | some p => exact dedup_keep_first_nodup _
  · intro s b a hp
    rw [generate_decimal_variants, hp]
    exact ⟨dedup_keep_first_head _ _, dedup_keep_first_sublist _⟩

/-- Witness for C4: a dot-free input gives no variants, and the head of
the variants of `"4798878.01"` is the exact merge. -/
theorem C4_witness :
    generate_decimal_variants [65] = [] ∧
    (generate_decimal_variants (ofStr "4798878.01")).head? =
      some (ofStr "4798878" ++ ofStr "01") :=
  ⟨C4_decimal_variants.1 [65] (by decide),
   (C4_decimal_variants.2.2.2.1 (ofStr "4798878.01") (ofStr "4798878") (ofStr "01")
     (by decide)).1⟩

/-! ## C6: status memoization -/

theorem fm_miss_eq (caches : DataCaches) (s : Str)
    (h0 : normalize_part_number (some s) ≠ [])
    (hmiss : caches.fm_active_cache.lookup (normalize_part_number (some s)) = none) :
    fm_find_active_flag caches s =
      (fm_value caches (normalize_part_number (some s)),
       { caches with fm_active_cache :=
           (normalize_part_number (some s),
            fm_value caches (normalize_part_number (some s))) :: caches.fm_active_cache },
       1) := by
  rw [fm_find_active_flag]
  rw [if_neg h0, hmiss]

theorem fm_hit_eq (caches : DataCaches) (s : Str) (v : Option Bool)
    (h0 : normalize_part_number (some s) ≠ [])
    (hhit : caches.fm_active_cache.lookup (normalize_part_number (some s)) = some v) :
    fm_find_active_flag caches s = (v, caches, 0) := by
  rw [fm_find_active_flag]
  rw [if_neg h0, hhit]

/-- **C6** — For a key whose normalized form is non-empty and not yet
memoized, the first status call issues exactly one external query and
stores its result in the memo under the normalized key before
returning; a second call with any string normalizing to the same key
issues no external query, leaves the caches unchanged, and returns the
memoized value; and in general every later call on any cache state in
which the key is memoized returns the memoized value with no external
query. -/
theorem C6_status_memoized (caches : DataCaches) (s1 s2 : Str)
    (h0 : normalize_part_number (some s1) ≠ [])
    (h12 : normalize_part_number (some s2) = normalize_part_number (some s1))
    (hmiss : caches.fm_active_cache.lookup (normalize_part_number (some s1)) = none) :
    (fm_find_active_flag caches s1).2.2 = 1 ∧
    (fm_find_active_flag caches s1).2.1.fm_active_cache.lookup
        (normalize_part_number (some s1)) = some (fm_find_active_flag caches s1).1 ∧
    fm_find_active_flag (fm_find_active_flag caches s1).2.1 s2 =
      ((fm_find_active_flag caches s1).1, (fm_find_active_flag caches s1).2.1, 0) ∧
    (∀ (d : DataCaches) (s3 : Str) (v : Option Bool),
        normalize_part_number (some s3) = normalize_part_number (some s1) →
        d.fm_active_cache.lookup (normalize_part_number (some s1)) = some v →
        fm_find_active_flag d s3 = (v, d, 0)) := by
  rw [fm_miss_eq caches s1 h0 hmiss]
  have hstore :
      ((normalize_part_number (some s1),
          fm_value caches (normalize_part_number (some s1))) ::
        caches.fm_active_cache).lookup (normalize_part_number (some s1)) =
        some (fm_value caches (normalize_part_number (some s1))) := by
    rw [List.lookup]
    simp
  refine ⟨rfl, hstore, ?_, ?_⟩
  case refine_2 =>
    intro d s3 v h3 hv
    have h03 : normalize_part_number (some s3) ≠ [] := by
      rw [h3]
      exact h0
    have hv3 : d.fm_active_cache.lookup (normalize_part_number (some s3)) = some v := by
      rw [h3]
      exact hv
    exact fm_hit_eq d s3 v h03 hv3
  have h02 : normalize_part_number (some s2) ≠ [] := by rw [h12]; exact h0
  have hhit2 : ({ caches with fm_active_cache :=
      (normalize_part_number (some s1),
       fm_value caches (normalize_part_number (some s1))) ::
        caches.fm_active_cache } : DataCaches).fm_active_cache.lookup
      (normalize_part_number (some s2)) =
      some (fm_value caches (normalize_part_number (some s1))) := by
    rw [h12]
    exact hstore
  rw [fm_hit_eq _ s2 _ h02 hhit2]

/-- Concrete cache state for the C6 witness: empty memo, one FileMaker
record with key `[88]` (`X`) and `ToggleActive = "Yes"`. -/
def caches4 : DataCaches :=
  { insmfh := []
    ininter := []
    vendor_map := []
    fm_active_cache := []
    fm_source := fun k => if k = [88] then some YES_CODES else none }

/-- Witness for C6: two calls for `"X"` on `caches4`. -/
theorem C6_witness :
    (fm_find_active_flag caches4 [88]).2.2 = 1 ∧
    (fm_find_active_flag caches4 [88]).2.1.fm_active_cache.lookup
        (normalize_part_number (some [88])) = some (fm_find_active_flag caches4 [88]).1 ∧
    fm_find_active_flag (fm_find_active_flag caches4 [88]).2.1 [88] =
      ((fm_find_active_flag caches4 [88]).1, (fm_find_active_flag caches4 [88]).2.1, 0) :=
  ⟨(C6_status_memoized caches4 [88] [88] (by decide) rfl rfl).1,
   (C6_status_memoized caches4 [88] [88] (by decide) rfl rfl).2.1,
   (C6_status_memoized caches4 [88] [88] (by decide) rfl rfl).2.2.1⟩

/-! ## Projection and stage lemmas for `evaluate_part` -/

theorem truthyS_iff {o : Option Str} : truthyS o = true ↔ ∃ m, o = some m ∧ m ≠ [] := by
  cases o with
  | none => simp [truthyS]
  | some m =>
    simp only [truthyS, Bool.not_eq_true', List.isEmpty_iff]
    constructor
    · intro h
      exact ⟨m, rfl, by simpa using h⟩
    · rintro ⟨m2, hm2, hne⟩
      cases hm2
      simpa using hne

theorem evaluate_Supplied (caches : DataCaches) (s : Str) :
    (evaluate_part caches s).1.Supplied = s := by
  rw [evaluate_part]
  split <;> rfl

theorem evaluate_VendorFlag (caches : DataCaches) (s : Str) :
    (evaluate_part caches s).1.VendorFlag = vendorFlag_of caches s := by
  rw [evaluate_part]
  split <;> rfl

theorem evaluate_VendorInternal (caches : DataCaches) (s : Str) :
    (evaluate_part caches s).1.VendorInternal =
      (if vendorFlag_of caches s then resolve_vendor_internal caches s else none) := by
  rw [evaluate_part]
  split <;> rfl

theorem evaluate_LZ (caches : DataCaches) (s : Str) :
    (evaluate_part caches s).1.LeadingZeroRemoved = (stage3_of caches s).2 := by
  rw [evaluate_part]
  split <;> rfl

theorem evaluate_Dec (caches : DataCaches) (s : Str) :
    (evaluate_part caches s).1.DecimalVariantUsed = (stage4_of caches s).2 := by
  rw [evaluate_part]
  split <;> rfl

theorem evaluate_Found (caches : DataCaches) (s : Str) :
    (evaluate_part caches s).1.AS400Found = truthyS (stage4_of caches s).1 := by
  rw [evaluate_part]
  split
  · rename_i h
    exact h.symm
  · rename_i h
    simp only [Bool.not_eq_true] at h
    exact h.symm

theorem evaluate_Master (caches : DataCaches) (s : Str) :
    (evaluate_part caches s).1.MasterNumber =
      (if truthyS (stage4_of caches s).1 = true then (stage4_of caches s).1 else none) := by
  rw [evaluate_part]
  split <;> rfl

theorem resolve_master_ne_nil {caches : DataCaches} {s m : Str}
    (h : resolve_master_number caches s = some m) : m ≠ [] := by
  by_cases hk : normalize_part_number (some s) = []
  · rw [resolve_master_number, if_pos hk] at h
    cases h
  · rw [resolve_master_number_eq caches s hk] at h
    split_ifs at h with h1 h2
    cases h
    exact h1

theorem truthyS_resolve_master (caches : DataCaches) (s : Str) :
    truthyS (resolve_master_number caches s) = (resolve_master_number caches s).isSome := by
  cases hr : resolve_master_number caches s with
  | none => rfl
  | some m =>
    have := resolve_master_ne_nil hr
    simp [truthyS, List.isEmpty_iff, this]

theorem try_decimal_some {caches : DataCaches} {l : List Str} {m nv : Str}
    (h : try_decimal_variants caches l = some (m, nv)) :
    m ≠ [] ∧ resolve_master_number caches nv = some m := by
  induction l with
  | nil => cases h
  | cons v vs ih =>
    simp only [try_decimal_variants] at h
    split_ifs at h with h1 h2
    · exact ih h
    · rw [truthyS_iff] at h2
      obtain ⟨m2, hm2, hne⟩ := h2
      rw [hm2] at h
      simp only [Option.getD_some] at h
      cases h
      rw [hm2]
      simp only [Option.getD_some]
      exact ⟨hne, trivial⟩
    · exact ih h

theorem decimal_of_truthy {caches : DataCaches} {s : Str} {f : Bool} {m3 : Option Str}
    (h : truthyS m3 = true) : decimal_stage caches s f m3 = (m3, none) := by
  rw [decimal_stage, if_neg]
  rintro ⟨h1, _⟩
  exact h1 h

theorem lz_snd_some {caches : DataCaches} {m2 : Option Str} {cand x : Str}
    (h : (leading_zero_stage caches m2 cand).2 = some x) :
    truthyS (leading_zero_stage caches m2 cand).1 = true := by
  simp only [leading_zero_stage] at h ⊢
  split_ifs at h ⊢ with h1 h2 h3
  exact h3

theorem no_alnum_of_normalize_nil {s : Str} (h : normalize_part_number (some s) = []) :
    ∀ c ∈ s, isAlnumCode c = false := by
  intro c hc
  simp only [normalize_part_number] at h
  rw [List.map_eq_nil_iff] at h
  rw [List.filter_eq_nil_iff] at h
  simpa using h c hc

theorem gdv_nil_of_normalize_nil {s : Str} (h : normalize_part_number (some s) = []) :
    generate_decimal_variants s = [] := by
  have hna := no_alnum_of_normalize_nil h
  rw [generate_decimal_variants]
  cases hp : parse_decimal s with
  | none => rfl
  | some p =>
    exfalso
    simp only [parse_decimal] at hp
    split_ifs at hp with hdot hbad
    push_neg at hbad
    obtain ⟨hne, hall⟩ := hbad
    obtain ⟨c, hc⟩ := List.exists_mem_of_ne_nil _ hne
    have hcs : c ∈ s := List.mem_of_mem_drop hc
    have hdig := List.all_eq_true.mp hall c hc
    have hnot := hna c hcs
    have hnot2 : ¬((65 ≤ c ∧ c ≤ 90) ∨ (97 ≤ c ∧ c ≤ 122) ∨ (48 ≤ c ∧ c ≤ 57)) := by
      rw [← isAlnumCode_iff]
      simp [hnot]
    simp only [Bool.and_eq_true, decide_eq_true_eq] at hdig
    exact hnot2 (Or.inr (Or.inr hdig))

theorem decimal_snd_some {caches : DataCaches} {s : Str} {f : Bool} {m3 : Option Str}
    {nv : Str} (h : (decimal_stage caches s f m3).2 = some nv) :
    truthyS (decimal_stage caches s f m3).1 = true := by
  simp only [decimal_stage] at h ⊢
  split_ifs at h ⊢ with h1
  cases htry : try_decimal_variants caches (generate_decimal_variants s) with
  | none =>
    rw [htry] at h
    simp at h
  | some p =>
    obtain ⟨m, nv2⟩ := p
    obtain ⟨hne, _⟩ := try_decimal_some htry
    show truthyS (some m) = true
    simpa [truthyS, List.isEmpty_iff] using hne

/-- **C9** — The normalizer is idempotent (`normalize(normalize(x)) ==
normalize(x)` for every input), it is total with the empty string as the
value of `None` and of the empty input, and every other input maps to a
string consisting only of digits and uppercase letters. -/
theorem C9_normalizer_idempotent_total :
    (∀ x : Option Str,
        normalize_part_number (some (normalize_part_number x)) = normalize_part_number x) ∧
    normalize_part_number none = [] ∧
    normalize_part_number (some []) = [] ∧
    (∀ s : Str, ∀ c ∈ normalize_part_number (some s),
        (48 ≤ c ∧ c ≤ 57) ∨ (65 ≤ c ∧ c ≤ 90)) :=
  ⟨normalize_idem, rfl, rfl, fun _ _ hc => mem_normalize hc⟩

/-- Witness for C9 at the concrete input `"v-100"` (normalizing to
`"V100"`; code 86 is `V`). -/
theorem C9_witness :
    normalize_part_number (some (normalize_part_number (some (ofStr "v-100")))) =
      normalize_part_number (some (ofStr "v-100")) ∧
    ((48 ≤ 86 ∧ 86 ≤ 57) ∨ (65 ≤ 86 ∧ 86 ≤ 90)) :=
  ⟨C9_normalizer_idempotent_total.1 (some (ofStr "v-100")),
   C9_normalizer_idempotent_total.2.2.2 (ofStr "v-100") 86 (by decide)⟩

/-! ## C10: heuristic-field invariant of the result record -/

/-- **C10** — In every result produced by `evaluate_part`, the
`LeadingZeroRemoved` and `DecimalVariantUsed` fields are never both set,
and whenever either is set the result has `AS400Found = true` and a
non-empty master number. -/
theorem C10_heuristic_fields (caches : DataCaches) (s : Str) :
    ((evaluate_part caches s).1.LeadingZeroRemoved = none ∨
      (evaluate_part caches s).1.DecimalVariantUsed = none) ∧
    (((evaluate_part caches s).1.LeadingZeroRemoved ≠ none ∨
       (evaluate_part caches s).1.DecimalVariantUsed ≠ none) →
      (evaluate_part caches s).1.AS400Found = true ∧
      ∃ m, (evaluate_part caches s).1.MasterNumber = some m ∧ m ≠ []) := by
  rw [evaluate_LZ, evaluate_Dec, evaluate_Found, evaluate_Master]
  by_cases h3 : (stage3_of caches s).2 = none
  · cases hnv : (stage4_of caches s).2 with
    | none =>
      refine ⟨Or.inl h3, ?_⟩
      rintro (hne | hne)
      · exact absurd h3 hne
      · exact absurd rfl hne
    | some nv =>
      have htr : truthyS (stage4_of caches s).1 = true := decimal_snd_some hnv
      refine ⟨Or.inl h3, fun _ => ⟨htr, ?_⟩⟩
      rw [if_pos htr]
      exact truthyS_iff.mp htr
  · cases hx : (stage3_of caches s).2 with
    | none => exact absurd hx h3
    | some x =>
      have htr3 : truthyS (stage3_of caches s).1 = true := lz_snd_some hx
      have hst4 : stage4_of caches s = ((stage3_of caches s).1, none) :=
        decimal_of_truthy htr3
      have h4 : (stage4_of caches s).2 = none := by rw [hst4]
      have htr4 : truthyS (stage4_of caches s).1 = true := by
        rw [hst4]
        exact htr3
      refine ⟨Or.inr h4, fun _ => ⟨htr4, ?_⟩⟩
      rw [if_pos htr4]
      exact truthyS_iff.mp htr4

/-- Witness for C10 at a concrete cache state and input. -/
theorem C10_witness :
    (evaluate_part caches4 [88]).1.LeadingZeroRemoved = none ∨
      (evaluate_part caches4 [88]).1.DecimalVariantUsed = none :=
  (C10_heuristic_fields caches4 [88]).1

/-! ## C8: totality of the per-item evaluation -/

/-- **C8** — `evaluate_part` is a total function: every supplied string
(including the empty string and strings normalizing to empty) yields a
`ResolutionResult` carrying the original input, and an input whose
normalized form is empty flows through every stage as a miss, ending
with `AS400Found = false` and no master, rather than failing. -/
theorem C8_always_returns (caches : DataCaches) (s : Str) :
    (∃ r caches2, evaluate_part caches s = (r, caches2) ∧ r.Supplied = s) ∧
    (normalize_part_number (some s) = [] →
      (evaluate_part caches s).1.AS400Found = false ∧
      (evaluate_part caches s).1.MasterNumber = none) := by
  constructor
  · exact ⟨(evaluate_part caches s).1, (evaluate_part caches s).2, rfl,
      evaluate_Supplied caches s⟩
  · intro hns
    have hvi : resolve_vendor_internal caches s = none := by
      simp only [resolve_vendor_internal]
      rw [if_pos hns]
    have hflag : vendorFlag_of caches s = false := by
      rw [vendorFlag_of, hvi]
      rfl
    have hcand : candidate_of caches s = [] := by
      rw [candidate_of, hflag]
      simp [hns]
    have hm2 : master2_of caches s = none := by
      rw [master2_of, hcand]
      simp
    have hst3 : stage3_of caches s = (none, none) := by
      rw [stage3_of, hm2, hcand, leading_zero_stage, if_neg]
      rintro ⟨_, hc, _⟩
      exact hc rfl
    have hgdv : generate_decimal_variants s = [] := gdv_nil_of_normalize_nil hns
    have hst4 : stage4_of caches s = (none, none) := by
      rw [stage4_of, hst3]
      show decimal_stage caches s (vendorFlag_of caches s) none = (none, none)
      rw [decimal_stage, hgdv, if_pos]
      · rw [try_decimal_variants]
      · exact ⟨by simp [truthyS], hflag⟩
    constructor
    · rw [evaluate_Found, hst4]
      rfl
    · rw [evaluate_Master, hst4]
      simp [truthyS]

/-- Witness for C8 at the input `"."` (code 46), which normalizes to the
empty string. -/
theorem C8_witness :
    (∃ r caches2, evaluate_part caches4 [46] = (r, caches2) ∧ r.Supplied = [46]) ∧
    ((evaluate_part caches4 [46]).1.AS400Found = false ∧
      (evaluate_part caches4 [46]).1.MasterNumber = none) :=
  ⟨(C8_always_returns caches4 [46]).1, (C8_always_returns caches4 [46]).2 (by decide)⟩

/-! ## C7: inputs unknown to every map -/

theorem resolve_master_none_of_unknown (caches : DataCaches) (k : Str)
    (hn : normalize_part_number (some k) = k)
    (hi : caches.ininter.lookup k = none)
    (hs : caches.insmfh.lookup k = none) :
    resolve_master_number caches k = none := by
  by_cases hk : k = []
  · subst hk
    rfl
  · have hk2 : normalize_part_number (some k) ≠ [] := by
      rw [hn]
      exact hk
    have hwalk : resolve_supersession_chain caches k = k := by
      simp only [resolve_supersession_chain]
      rw [hn, if_neg hk, hs]
    rw [resolve_master_number_eq caches k hk2, hn, hi]
    simp only [Option.getD_none]
    rw [hwalk, if_neg hk, hs]
    simp

theorem try_none (caches : DataCaches) (l : List Str)
    (h : ∀ v ∈ l, resolve_master_number caches (normalize_part_number (some v)) = none) :
    try_decimal_variants caches l = none := by
  induction l with
  | nil => rfl
  | cons v vs ih =>
    simp only [try_decimal_variants]
    split_ifs with h1 h2
    · exact ih (fun x hx => h x (List.mem_cons_of_mem _ hx))
    · exfalso
      rw [h v (List.mem_cons_self _ _)] at h2
      simp [truthyS] at h2
    · exact ih (fun x hx => h x (List.mem_cons_of_mem _ hx))

theorem mem_of_mem_dropWhile {l : List Nat} {p : Nat → Bool} {x : Nat}
    (h : x ∈ l.dropWhile p) : x ∈ l := by
  induction l with
  | nil => simpa using h
  | cons a l ih =>
    rw [List.dropWhile_cons] at h
    split_ifs at h with hp
    · exact List.mem_cons_of_mem _ (ih h)
    · exact h

/-- **C7** — For every supplied string none of whose relevant candidate
keys (the normalized form, its leading-zero-stripped form, and each
normalized decimal variant) occurs in the vendor, interchange, or
supersession maps, `evaluate_part` reports a full miss: no vendor flag,
no heuristic recorded, `AS400Found = false` and no master number. -/
theorem C7_all_miss_default (caches : DataCaches) (supplied : Str)
    (hmaps : ∀ k ∈ normalize_part_number (some supplied) ::
        (normalize_part_number (some supplied)).dropWhile (fun c => c == 48) ::
        (generate_decimal_variants supplied).map (fun v => normalize_part_number (some v)),
      caches.vendor_map.lookup k = none ∧
      caches.ininter.lookup k = none ∧
      caches.insmfh.lookup k = none) :
    (evaluate_part caches supplied).1.AS400Found = false ∧
    (evaluate_part caches supplied).1.MasterNumber = none ∧
    (evaluate_part caches supplied).1.VendorFlag = false ∧
    (evaluate_part caches supplied).1.VendorInternal = none ∧
    (evaluate_part caches supplied).1.LeadingZeroRemoved = none ∧
    (evaluate_part caches supplied).1.DecimalVariantUsed = none := by
  obtain ⟨hv0, hi0, hs0⟩ := hmaps _ (List.mem_cons_self _ _)
  obtain ⟨hv1, hi1, hs1⟩ := hmaps _ (List.mem_cons_of_mem _ (List.mem_cons_self _ _))
  have hvi : resolve_vendor_internal caches supplied = none := by
    simp only [resolve_vendor_internal]
    split_ifs with h
    · rfl
    · exact hv0
  have hflag : vendorFlag_of caches supplied = false := by
    rw [vendorFlag_of, hvi]
    rfl
  have hcand : candidate_of caches supplied = normalize_part_number (some supplied) := by
    rw [candidate_of, hflag]
    simp
  have hm2 : master2_of caches supplied = none := by
    rw [master2_of, hcand]
    split_ifs with h
    · exact resolve_master_none_of_unknown caches _ (normalize_idem _) hi0 hs0
    · rfl
  have hstrip : normalize_part_number
      (some ((normalize_part_number (some supplied)).dropWhile (fun c => c == 48))) =
      (normalize_part_number (some supplied)).dropWhile (fun c => c == 48) := by
    apply normalize_fixed
    intro c hc
    exact mem_normalize (mem_of_mem_dropWhile hc)
  have hst3 : stage3_of caches supplied = (none, none) := by
    rw [stage3_of, hm2, hcand]
    simp only [leading_zero_stage]
    split_ifs with h1 h2 h3
    · exfalso
      rw [resolve_master_none_of_unknown caches _ hstrip hi1 hs1] at h3
      simp [truthyS] at h3
    · rfl
    · rfl
    · rfl
  have htry : try_decimal_variants caches (generate_decimal_variants supplied) = none := by
    apply try_none
    intro v hv
    have hmem : normalize_part_number (some v) ∈ normalize_part_number (some supplied) ::
        (normalize_part_number (some supplied)).dropWhile (fun c => c == 48) ::
        (generate_decimal_variants supplied).map (fun w => normalize_part_number (some w)) :=
      List.mem_cons_of_mem _ (List.mem_cons_of_mem _ (List.mem_map_of_mem _ hv))
    obtain ⟨_, hi2, hs2⟩ := hmaps _ hmem
    exact resolve_master_none_of_unknown caches _ (normalize_idem _) hi2 hs2
  have hst4 : stage4_of caches supplied = (none, none) := by
    rw [stage4_of, hst3]
    show decimal_stage caches supplied (vendorFlag_of caches supplied) none = (none, none)
    rw [decimal_stage, if_pos ⟨by simp [truthyS], hflag⟩, htry]
  refine ⟨?_, ?_, ?_, ?_, ?_, ?_⟩
  · rw [evaluate_Found, hst4]
    rfl
  · rw [evaluate_Master, hst4]
    simp [truthyS]
  · rw [evaluate_VendorFlag]
    exact hflag
  · rw [evaluate_VendorInternal, hflag]
    simp
  · rw [evaluate_LZ, hst3]
  · rw [evaluate_Dec, hst4]

/-- Witness for C7: the input `"XYZ"` on the empty maps of `caches4`. -/
theorem C7_witness :
    (evaluate_part caches4 (ofStr "XYZ")).1.AS400Found = false ∧
    (evaluate_part caches4 (ofStr "XYZ")).1.MasterNumber = none ∧
    (evaluate_part caches4 (ofStr "XYZ")).1.VendorFlag = false ∧
    (evaluate_part caches4 (ofStr "XYZ")).1.VendorInternal = none ∧
    (evaluate_part caches4 (ofStr "XYZ")).1.LeadingZeroRemoved = none ∧
    (evaluate_part caches4 (ofStr "XYZ")).1.DecimalVariantUsed = none :=
  C7_all_miss_default caches4 (ofStr "XYZ") (by decide)

/-! ## C3: the cascade refines the specification cascade -/

theorem lookup_val_mem {β : Type} (l : List (Str × β)) (k : Str) (v : β)
    (h : l.lookup k = some v) : ∃ a, (a, v) ∈ l := by
  induction l with
  | nil => simp [List.lookup] at h
  | cons p l ih =>
    obtain ⟨a, b⟩ := p
    rw [List.lookup] at h
    by_cases hk : (k == a) = true
    · simp only [hk] at h
      cases h
      exact ⟨a, List.mem_cons_self _ _⟩
    · have hk2 : (k == a) = false := by simpa using hk
      rw [hk2] at h
      obtain ⟨a2, hmem⟩ := ih h
      exact ⟨a2, List.mem_cons_of_mem _ hmem⟩

theorem resolve_vendor_some {caches : DataCaches} {supplied i : Str}
    (hwf : ∀ p ∈ caches.vendor_map, p.2 ≠ ([] : Str))
    (h : resolve_vendor_internal caches supplied = some i) : i ≠ [] := by
  simp only [resolve_vendor_internal] at h
  split_ifs at h with h1
  obtain ⟨a, hmem⟩ := lookup_val_mem _ _ _ h
  exact hwf (a, i) hmem

theorem master2_of_eq (caches : DataCaches) (s : Str) :
    master2_of caches s = resolve_master_number caches (candidate_of caches s) := by
  rw [master2_of]
  split_ifs with h
  · rfl
  · push_neg at h
    rw [h]
    rfl

theorem lz_of_truthy {caches : DataCaches} {m2 : Option Str} {cand : Str}
    (h : truthyS m2 = true) : leading_zero_stage caches m2 cand = (m2, none) := by
  rw [leading_zero_stage, if_neg]
  rintro ⟨h1, _, _⟩
  exact h1 h

theorem first_success_some {caches : DataCaches} {l : List Str} {m nv : Str}
    (h : first_success caches l = some (m, nv)) :
    resolve_master_number caches nv = some m := by
  induction l with
  | nil => cases h
  | cons v vs ih =>
    rw [first_success] at h
    cases hr : resolve_master_number caches (normalize_part_number (some v)) with
    | none =>
      rw [hr] at h
      exact ih h
    | some m2 =>
      rw [hr] at h
      cases h
      exact hr

theorem try_eq_first (caches : DataCaches) (l : List Str) :
    try_decimal_variants caches l = first_success caches l := by
  induction l with
  | nil => rfl
  | cons v vs ih =>
    simp only [try_decimal_variants, first_success]
    split_ifs with h1 h2
    · rw [h1]
      exact ih
    · rw [truthyS_iff] at h2
      obtain ⟨m2, hm2, _⟩ := h2
      rw [hm2]
      simp only [Option.getD_some]
    · have hnone : resolve_master_number caches (normalize_part_number (some v)) = none := by
        cases hr : resolve_master_number caches (normalize_part_number (some v)) with
        | none => rfl
        | some m =>
          exfalso
          apply h2
          rw [hr]
          simp [truthyS, List.isEmpty_iff, resolve_master_ne_nil hr]
      rw [hnone]
      exact ih

theorem C3_tail (caches : DataCaches) (supplied : Str)
    (hst3 : stage3_of caches supplied = (none, none))
    (hflagEq : vendorFlag_of caches supplied = (resolve_vendor_internal caches supplied).isSome) :
    (((resolve_vendor_internal caches supplied).isSome : Bool),
     (if truthyS (stage4_of caches supplied).1 = true then (stage4_of caches supplied).1 else none),
     (stage3_of caches supplied).2,
     (stage4_of caches supplied).2) =
    (if (resolve_vendor_internal caches supplied).isSome = true then
       (((resolve_vendor_internal caches supplied).isSome : Bool),
        (none : Option Str), (none : Option Str), (none : Option Str))
     else
       match first_success caches (generate_decimal_variants supplied) with
       | some (m, nv) =>
         (((resolve_vendor_internal caches supplied).isSome : Bool),
          some m, (none : Option Str), some nv)
       | none =>
         (((resolve_vendor_internal caches supplied).isSome : Bool),
          (none : Option Str), (none : Option Str), (none : Option Str))) := by
  have h1 : stage4_of caches supplied =
      decimal_stage caches supplied (vendorFlag_of caches supplied) none := by
    rw [stage4_of, hst3]
  cases hf : (resolve_vendor_internal caches supplied).isSome with
  | true =>
    have hst4 : stage4_of caches supplied = (none, none) := by
      rw [h1, decimal_stage, if_neg]
      rintro ⟨_, hfl⟩
      rw [hflagEq, hf] at hfl
      cases hfl
    rw [if_pos rfl, hst4, hst3]
    simp [truthyS]
  | false =>
    have hst4 : stage4_of caches supplied =
        (match first_success caches (generate_decimal_variants supplied) with
         | some (m, nv) => ((some m : Option Str), (some nv : Option Str))
         | none => ((none : Option Str), (none : Option Str))) := by
      rw [h1, decimal_stage, if_pos ⟨by simp [truthyS], by rw [hflagEq, hf]⟩, try_eq_first]
    rw [if_neg (show ¬((false : Bool) = true) by simp)]
    rw [hst4, hst3]
    cases hfs : first_success caches (generate_decimal_variants supplied) with
    | none => simp [truthyS]
    | some p =>
      obtain ⟨m, nv⟩ := p
      have hres := first_success_some hfs
      have hne := resolve_master_ne_nil hres
      simp [truthyS, List.isEmpty_iff, hne]

/-- **C3** — For every cache state (with the loader invariant that vendor
map values are non-empty) and every supplied string, the per-item
evaluation realizes exactly the spec's ordered cascade
vendor → direct → leading-zero → decimal with short-circuit on first
success: the observable outcome (vendor flag, master number, recorded
leading-zero candidate, recorded decimal variant) of `evaluate_part`
coincides with `cascade_spec`, the cascade transcribed from spec §4.4. -/
theorem C3_cascade_matches_spec (caches : DataCaches) (supplied : Str)
    (hwf : ∀ p ∈ caches.vendor_map, p.2 ≠ ([] : Str)) :
    ((evaluate_part caches supplied).1.VendorFlag,
     (evaluate_part caches supplied).1.MasterNumber,
     (evaluate_part caches supplied).1.LeadingZeroRemoved,
     (evaluate_part caches supplied).1.DecimalVariantUsed) =
      cascade_spec caches supplied := by
  have hflagEq : vendorFlag_of caches supplied =
      (resolve_vendor_internal caches supplied).isSome := by
    cases hvi : resolve_vendor_internal caches supplied with
    | none =>
      rw [vendorFlag_of, hvi]
      rfl
    | some i =>
      have hne := resolve_vendor_some hwf hvi
      rw [vendorFlag_of, hvi]
      simp [truthyS, List.isEmpty_iff, hne]
  have hcand : (match resolve_vendor_internal caches supplied with
      | some internal => internal
      | none => normalize_part_number (some supplied)) = candidate_of caches supplied := by
    cases hvi : resolve_vendor_internal caches supplied with
    | none =>
      rw [candidate_of, vendorFlag_of, hvi]
      simp [truthyS]
    | some i =>
      have hne := resolve_vendor_some hwf hvi
      rw [candidate_of, vendorFlag_of, hvi]
      simp [truthyS, List.isEmpty_iff, hne]
  rw [evaluate_VendorFlag, evaluate_Master, evaluate_LZ, evaluate_Dec, hflagEq]
  simp only [cascade_spec]
  rw [hcand]
  cases hm2 : resolve_master_number caches (candidate_of caches supplied) with
  | some m =>
    have hne := resolve_master_ne_nil hm2
    have hm2q : master2_of caches supplied = some m := by
      rw [master2_of_eq, hm2]
    have hst3 : stage3_of caches supplied = (some m, none) := by
      rw [stage3_of, hm2q]
      exact lz_of_truthy (by simp [truthyS, List.isEmpty_iff, hne])
    have htr3 : truthyS (stage3_of caches supplied).1 = true := by
      rw [hst3]
      simp [truthyS, List.isEmpty_iff, hne]
    have hst4 : stage4_of caches supplied = ((stage3_of caches supplied).1, none) :=
      decimal_of_truthy htr3
    rw [hst4, hst3]
    simp [truthyS, List.isEmpty_iff, hne]
  | none =>
    have hm2q : master2_of caches supplied = none := by
      rw [master2_of_eq, hm2]
    by_cases hh : (candidate_of caches supplied).head? = some 48
    · have hcne : candidate_of caches supplied ≠ [] := by
        intro he
        rw [he] at hh
        simp at hh
      by_cases hse : (candidate_of caches supplied).dropWhile (fun c => c == 48) = []
      · have hnstr : ¬((candidate_of caches supplied).dropWhile (fun c => c == 48) ≠ []) :=
          fun hc => hc hse
        have hst3 : stage3_of caches supplied = (none, none) := by
          rw [stage3_of, hm2q]
          simp only [leading_zero_stage]
          rw [if_pos ⟨by simp [truthyS], hcne, hh⟩, if_neg hnstr]
        rw [if_pos hh, if_neg hnstr]
        exact C3_tail caches supplied hst3 hflagEq
      · rw [if_pos hh, if_pos hse]
        cases hr : resolve_master_number caches
            ((candidate_of caches supplied).dropWhile (fun c => c == 48)) with
        | none =>
          have hst3 : stage3_of caches supplied = (none, none) := by
            rw [stage3_of, hm2q]
            simp only [leading_zero_stage]
            rw [if_pos ⟨by simp [truthyS], hcne, hh⟩, if_pos hse, hr]
            simp [truthyS]
          exact C3_tail caches supplied hst3 hflagEq
        | some m =>
          have hne := resolve_master_ne_nil hr
          have hst3 : stage3_of caches supplied =
              (some m, some ((candidate_of caches supplied).dropWhile (fun c => c == 48))) := by
            rw [stage3_of, hm2q]
            simp only [leading_zero_stage]
            rw [if_pos ⟨by simp [truthyS], hcne, hh⟩, if_pos hse, hr]
            simp [truthyS, List.isEmpty_iff, hne]
          have htr3 : truthyS (stage3_of caches supplied).1 = true := by
            rw [hst3]
            simp [truthyS, List.isEmpty_iff, hne]
          have hst4 : stage4_of caches supplied = ((stage3_of caches supplied).1, none) :=
            decimal_of_truthy htr3
          rw [hst4, hst3]
          simp [truthyS, List.isEmpty_iff, hne]
    · have hst3 : stage3_of caches supplied = (none, none) := by
        rw [stage3_of, hm2q]
        simp only [leading_zero_stage]
        rw [if_neg]
        rintro ⟨_, _, h3⟩
        exact hh h3
      rw [if_neg hh]
      exact C3_tail caches supplied hst3 hflagEq

/-- Witness for C3 at a concrete cache state and input. -/
theorem C3_witness :
    ((evaluate_part caches4 [88]).1.VendorFlag,
     (evaluate_part caches4 [88]).1.MasterNumber,
     (evaluate_part caches4 [88]).1.LeadingZeroRemoved,
     (evaluate_part caches4 [88]).1.DecimalVariantUsed) =
      cascade_spec caches4 [88] :=
  C3_cascade_matches_spec caches4 [88] (by simp [caches4])

end Crownpipe
